import Mathlib

set_option maxHeartbeats 1000000
set_option maxRecDepth 4000

/-!
Verification of the task-plan parser and dependency validator
(`skills/task-decomposition/scripts/validate-plan.py`).

The field-level parsing helpers (`Files` and `Preconditions` values), the
rule validator `validate_tasks` and the DFS cycle detector `detect_cycles`
are embedded as executable Lean functions, translated line by line from the
Python source.  Machine strings are modelled as Lean `String`s (lists of
characters); Python's regex fragments that the code relies on
(`Task\s+(\d+)`, splitting, stripping) are implemented as character-list
scanners with the same semantics on the inputs the program handles.
-/

/-- ASCII whitespace recognised by Python's `str.strip()` and regex `\s`. -/
def isPySpace (c : Char) : Bool :=
  c = ' ' || c = '\t' || c = '\n' || c = '\r' || c = '\x0b' || c = '\x0c'

/-- Python `str.strip(chars)`: drop characters matching `p` from both ends. -/
def pyStripList (p : Char → Bool) (l : List Char) : List Char :=
  ((l.dropWhile p).reverse.dropWhile p).reverse

/-- Python `s.split(sep)` for a one-character separator: splits at every
occurrence, never merging; the empty string gives one empty piece. -/
def pySplitChar (sep : Char) : List Char → List (List Char)
  | [] => [[]]
  | c :: rest =>
    if c = sep then [] :: pySplitChar sep rest
    else
      match pySplitChar sep rest with
      | [] => [[c]]
      | g :: gs => (c :: g) :: gs

/-- One entry of the `Files` field: Python `f.strip().strip("\x60")`. -/
def cleanEntry (l : List Char) : List Char :=
  pyStripList (fun c => c = '\x60') (pyStripList isPySpace l)

/-- The parser's handling of a `Files` field value (validate-plan.py lines
52-56): strip the raw value; an empty (falsy) string yields `[]`, otherwise
split on commas and clean each entry. -/
def fileListOfField (s : String) : List String :=
  let fs := pyStripList isPySpace s.data
  if fs = [] then [] else (pySplitChar ',' fs).map (fun l => String.mk (cleanEntry l))

/-- Python `int()` on a non-empty all-digit string. -/
def digitsToNat (ds : List Char) : Nat :=
  ds.foldl (fun a c => a * 10 + (c.toNat - 48)) 0

/-- One attempt of the regex `Task\s+(\d+)` anchored at the head of the text:
literal `Task`, then one or more whitespace characters, then one or more
digits (both runs maximal); returns the captured number and the rest. -/
def matchTaskRef : List Char → Option (Nat × List Char)
  | 'T' :: 'a' :: 's' :: 'k' :: rest =>
    let sp := rest.span isPySpace
    if sp.1 = [] then none
    else
      let dg := sp.2.span Char.isDigit
      if dg.1 = [] then none else some (digitsToNat dg.1, dg.2)
  | _ => none

/-- Scanner for `re.findall(r"Task\s+(\d+)", s)`: left-to-right,
non-overlapping; on failure advance one character, on success continue after
the match.  The fuel argument (instantiated with the text length, which each
step strictly exceeds in consumed characters) makes the recursion
structural. -/
def findTaskRefsAux : Nat → List Char → List Nat
  | 0, _ => []
  | _ + 1, [] => []
  | fuel + 1, c :: rest =>
    match matchTaskRef (c :: rest) with
    | some (n, rest2) => n :: findTaskRefsAux fuel rest2
    | none => findTaskRefsAux fuel rest

/-- `re.findall(r"Task\s+(\d+)", s)` as a list of captured numbers. -/
def findTaskRefs (l : List Char) : List Nat :=
  findTaskRefsAux l.length l

/-- Python `str.lower()` (ASCII). -/
def pyLowerList (l : List Char) : List Char := l.map Char.toLower

/-- Parsing of a present `Preconditions` field value (validate-plan.py lines
58-65): strip it; if the lowered text is exactly `none` the list is empty,
otherwise collect every `Task <n>` reference in the stripped text. -/
def parsePrecondsField (s : String) : List Nat :=
  let t := pyStripList isPySpace s.data
  if pyLowerList t = "none".data then [] else findTaskRefs t

/-- One parsed task record, mirroring the dict built by `parse_task_plan`
(validate-plan.py lines 67-77).  `fileCount` is stored separately exactly as
the Python dict stores `file_count` next to `files`. -/
structure TaskRec where
  num : Nat
  title : String
  files : List String
  fileCount : Nat
  preconditions : List Nat
  doneWhen : String
  complexity : String
  parallel : String
  hasSteps : Bool
deriving DecidableEq, Repr

/-- One validator finding, mirroring the issue/warning dicts appended by
`validate_tasks`. -/
structure Finding where
  task : Nat
  rule : String
  severity : String
  message : String
deriving DecidableEq, Repr

/-- The dict returned by `validate_tasks` (lines 171-178). -/
structure ValidationResult where
  totalTasks : Nat
  errors : Nat
  warnings : Nat
  issues : List Finding
  warningsList : List Finding
  passed : Bool
deriving DecidableEq, Repr

/-- The mutable state of `detect_cycles`: the `visited` and `rec_stack` sets,
the current `path` list, the accumulated `cycles`, and a counter of how many
times `dfs` has been entered (instrumentation only: no behaviour depends on
it). -/
structure DfsState where
  visited : List Nat
  recStack : List Nat
  path : List Nat
  cycles : List (List Nat)
  calls : Nat
deriving DecidableEq, Repr

/-- `visited.add(node)`, `rec_stack.add(node)`, `path.append(node)` at the
top of `dfs` (lines 189-191), plus the call counter. -/
def enterNode (node : Nat) (s : DfsState) : DfsState :=
  { s with
    visited := if node ∈ s.visited then s.visited else node :: s.visited
    recStack := node :: s.recStack
    path := s.path ++ [node]
    calls := s.calls + 1 }

/-- `path.pop()`, `rec_stack.discard(node)` at the bottom of `dfs`
(lines 200-201). -/
def exitNode (node : Nat) (s : DfsState) : DfsState :=
  { s with path := s.path.dropLast, recStack := s.recStack.erase node }

/-- `cycle_start = path.index(neighbor); cycles.append(path[cycle_start:] +
[neighbor])` (lines 197-198). -/
def recordCycle (node : Nat) (s : DfsState) : DfsState :=
  { s with cycles := s.cycles ++ [s.path.drop (s.path.indexOf node) ++ [node]] }

/-- The keys of a Python dict built from an association list: first
occurrence order, duplicates dropped. -/
def pyDictKeysAux (seen : List Nat) : List (Nat × List Nat) → List Nat
  | [] => []
  | (k, _) :: rest =>
    if k ∈ seen then pyDictKeysAux seen rest
    else k :: pyDictKeysAux (k :: seen) rest

def pyDictKeys (l : List (Nat × List Nat)) : List Nat :=
  pyDictKeysAux [] l

/-- `graph.get(node, [])`: the value of the last binding for the key (in a
dict comprehension a later duplicate key overwrites), or `[]`. -/
def pyDictGet (l : List (Nat × List Nat)) (k : Nat) : List Nat :=
  match (l.filter (fun p => p.1 == k)).getLast? with
  | some p => p.2
  | none => []

/-- The `for neighbor in graph.get(node, [])` loop body of `dfs`
(lines 193-198), with the recursive call abstracted as `next`. -/
def dfsNeighbors (next : Nat → DfsState → Option DfsState) :
    List Nat → DfsState → Option DfsState
  | [], s => some s
  | n :: rest, s =>
    if n ∈ s.visited then
      dfsNeighbors next rest (if n ∈ s.recStack then recordCycle n s else s)
    else
      match next n s with
      | none => none
      | some s2 => dfsNeighbors next rest s2

/-- The recursive `dfs` of `detect_cycles` (lines 188-201).  The fuel
argument bounds the recursion depth; `detect_cycles` passes enough fuel, and
this is proved never to run out. -/
def dfsF (graph : List (Nat × List Nat)) : Nat → Nat → DfsState → Option DfsState
  | 0, _, _ => none
  | fuel + 1, node, s =>
    (dfsNeighbors (dfsF graph fuel) (pyDictGet graph node) (enterNode node s)).map
      (exitNode node)

/-- The outer loop `for task_num in graph: if task_num not in visited:
dfs(task_num, [])` (lines 203-205); each root is started with a fresh empty
path, while `visited`, `rec_stack` and `cycles` persist. -/
def runRoots (graph : List (Nat × List Nat)) (fuel : Nat) :
    List Nat → DfsState → Option DfsState
  | [], s => some s
  | k :: ks, s =>
    if k ∈ s.visited then runRoots graph fuel ks s
    else
      match dfsF graph fuel k { s with path := [] } with
      | none => none
      | some s2 => runRoots graph fuel ks s2

/-- Fuel sufficient for every traversal: the number of dict entries plus the
total length of all adjacency lists bounds the number of distinct nodes. -/
def dfsFuel (graph : List (Nat × List Nat)) : Nat :=
  (graph.map Prod.fst ++ (graph.map (fun p => p.2)).flatten).length

def initState : DfsState := ⟨[], [], [], [], 0⟩

/-- `detect_cycles` run on an explicit adjacency list. -/
def runCycles (graph : List (Nat × List Nat)) : Option DfsState :=
  runRoots graph (dfsFuel graph) (pyDictKeys graph) initState

/-- `graph = {t["num"]: t["preconditions"] for t in tasks}` (line 183). -/
def pyGraph (tasks : List TaskRec) : List (Nat × List Nat) :=
  tasks.map (fun t => (t.num, t.preconditions))

/-- `detect_cycles` (validate-plan.py lines 181-207). -/
def detect_cycles (tasks : List TaskRec) : List (List Nat) :=
  match runCycles (pyGraph tasks) with
  | some s => s.cycles
  | none => []

/-- `VALID_COMPLEXITIES = {"trivial", "small", "medium", "large"}` (line 27),
a Python set literal; this list is one enumeration of it, in the order
written in the source. -/
def validComplexities : List String := ["trivial", "small", "medium", "large"]

def atomicFinding (t : TaskRec) : Finding :=
  ⟨t.num, "atomic_scope", "error",
    "Task " ++ toString t.num ++ ": Touches " ++ toString t.fileCount ++
      " files (max 3). Split this task."⟩

def doneFinding (t : TaskRec) : Finding :=
  ⟨t.num, "verifiable", "error",
    "Task " ++ toString t.num ++ ": Missing \x27Done when\x27 verification command."⟩

def placeholderFinding (t : TaskRec) : Finding :=
  ⟨t.num, "verifiable", "warning",
    "Task " ++ toString t.num ++ ": \x27Done when\x27 is placeholder (" ++
      t.doneWhen ++ "). Needs a concrete command."⟩

def stepsFinding (t : TaskRec) : Finding :=
  ⟨t.num, "steps", "warning",
    "Task " ++ toString t.num ++ ": No steps found. Add concrete action steps."⟩

def precondFinding (t : TaskRec) (dep : Nat) : Finding :=
  ⟨t.num, "preconditions", "error",
    "Task " ++ toString t.num ++ ": References Task " ++ toString dep ++
      " which does not exist."⟩

def complexityFinding (t : TaskRec) : Finding :=
  ⟨t.num, "complexity", "error",
    "Task " ++ toString t.num ++ ": Missing complexity sizing."⟩

/-- The non-standard-complexity warning; its message joins the complexity
set in the interpreter's iteration order, passed here as `order`. -/
def complexityWarnFinding (order : List String) (t : TaskRec) : Finding :=
  ⟨t.num, "complexity", "warning",
    "Task " ++ toString t.num ++ ": Complexity \x27" ++ t.complexity ++
      "\x27 not standard. Use: " ++ String.intercalate ", " order⟩

def filesFinding (t : TaskRec) : Finding :=
  ⟨t.num, "files", "warning", "Task " ++ toString t.num ++ ": No files listed."⟩

def cycleIssue (c : List Nat) : Finding :=
  ⟨c.headD 0, "acyclic", "error",
    "Circular dependency detected: " ++
      String.intercalate " -> " (c.map (fun t => "Task " ++ toString t))⟩

/-- The error-severity findings one task contributes, in the order the loop
body of `validate_tasks` appends them to `issues` (rules 1, 2, 4, 5). -/
def taskIssues (taskNums : List Nat) (t : TaskRec) : List Finding :=
  (if 3 < t.fileCount then [atomicFinding t] else []) ++
  (if t.doneWhen = "" then [doneFinding t] else []) ++
  ((t.preconditions.filter (fun d => decide (¬ d ∈ taskNums))).map (precondFinding t)) ++
  (if t.complexity = "" then [complexityFinding t] else [])

/-- The warning-severity findings one task contributes, in the order the
loop body appends them to `warnings` (rules 2, 3, 5, 6). -/
def taskWarnings (order : List String) (t : TaskRec) : List Finding :=
  (if t.doneWhen ≠ "" ∧ pyLowerList t.doneWhen.data ∈ ["tbd".data, "todo".data, "n/a".data]
    then [placeholderFinding t] else []) ++
  (if t.hasSteps then [] else [stepsFinding t]) ++
  (if t.complexity ≠ "" ∧ ¬ t.complexity ∈ order
    then [complexityWarnFinding order t] else []) ++
  (if t.files = [] ∨ t.files = [""] then [filesFinding t] else [])

/-- `validate_tasks` (validate-plan.py lines 82-178), parameterised by the
iteration order of the `VALID_COMPLEXITIES` set. -/
def validate_tasksO (order : List String) (tasks : List TaskRec) : ValidationResult :=
  let taskNums := tasks.map (fun t => t.num)
  let perIssues := (tasks.map (taskIssues taskNums)).flatten
  let perWarnings := (tasks.map (taskWarnings order)).flatten
  let issues := perIssues ++ (detect_cycles tasks).map cycleIssue
  { totalTasks := tasks.length
    errors := issues.length
    warnings := perWarnings.length
    issues := issues
    warningsList := perWarnings
    passed := issues.length == 0 }

/-- `validate_tasks` with the complexity set enumerated in source order. -/
def validate_tasks (tasks : List TaskRec) : ValidationResult :=
  validate_tasksO validComplexities tasks

/-- The findings in a list attributed to task number `n` under rule `r`. -/
def findingsFor (l : List Finding) (n : Nat) (r : String) : List Finding :=
  l.filter (fun f => f.task == n && f.rule == r)

/-- There is a finding for task number `n` under rule `r`. -/
def hasFinding (l : List Finding) (n : Nat) (r : String) : Prop :=
  ∃ f ∈ l, f.task = n ∧ f.rule = r

/-- A finding without its message text. -/
def findingCore (f : Finding) : Nat × String × String :=
  (f.task, f.rule, f.severity)

/-- A validation result with message texts erased: everything the validator
computes except the free-text messages. -/
def resultCore (r : ValidationResult) :
    Nat × Nat × Nat × List (Nat × String × String) × List (Nat × String × String) × Bool :=
  (r.totalTasks, r.errors, r.warnings, r.issues.map findingCore,
    r.warningsList.map findingCore, r.passed)

/-- Every node the traversal can ever touch: the dict keys together with
every entry of every adjacency list. -/
def allNodesF (graph : List (Nat × List Nat)) : Finset Nat :=
  (graph.map Prod.fst ++ (graph.map (fun p => p.2)).flatten).toFinset

/-- Number of touchable nodes not yet visited. -/
def measureOf (graph : List (Nat × List Nat)) (s : DfsState) : Nat :=
  (allNodesF graph \ s.visited.toFinset).card

/-- Invariant relating a DFS state to a later one: `visited` only grows,
stays inside the original `visited` plus the touchable nodes, and each call
consumes one unvisited touchable node. -/
def dfsInv (graph : List (Nat × List Nat)) (s s' : DfsState) : Prop :=
  s.visited ⊆ s'.visited ∧
    s'.visited.toFinset ⊆ s.visited.toFinset ∪ allNodesF graph ∧
    s'.calls + measureOf graph s' ≤ s.calls + measureOf graph s

/-- A minimal task record used as concrete input in witnesses: number `n`,
preconditions `pre`, and fields chosen to trigger no other finding than the
files warning. -/
def wTask (n : Nat) (pre : List Nat) : TaskRec :=
  ⟨n, "t", ["f.py"], 1, pre, "x", "small", "", true⟩

/-- The end-to-end scenario task of C7, with `files`, `preconditions` taken
from the parser on the field values named in the claim. -/
def c7ScenarioTask : TaskRec :=
  ⟨1, "T", fileListOfField "a.py, b.py, c.py, d.py",
    (fileListOfField "a.py, b.py, c.py, d.py").length,
    parsePrecondsField "none", "tests pass", "small", "", false⟩

/-- A task whose complexity label is outside the standard set, triggering
the warning whose message joins the complexity set. -/
def c9Task : TaskRec :=
  ⟨1, "t", ["a"], 1, [], "x", "huge", "", true⟩

/-- A task violating several rules at once (no files, dangling precondition,
empty done-when, empty complexity, no steps), used to witness that rules are
evaluated exhaustively. -/
def w5Task : TaskRec :=
  ⟨1, "t", [], 0, [7], "", "", "", false⟩

/-! ### Basic lemmas about the string helpers -/

theorem pySplitChar_ne_nil (sep : Char) (l : List Char) : pySplitChar sep l ≠ [] := by
  induction l with
  | nil => simp [pySplitChar]
  | cons c rest ih =>
    by_cases h : c = sep
    · simp [pySplitChar, h]
    · simp only [pySplitChar, if_neg h]
      rcases hr : pySplitChar sep rest with _ | ⟨g, gs⟩
      · simp
      · simp

theorem pySplitChar_length (sep : Char) (l : List Char) :
    (pySplitChar sep l).length = l.count sep + 1 := by
  induction l with
  | nil => simp [pySplitChar]
  | cons c rest ih =>
    by_cases h : c = sep
    · simp [pySplitChar, h, List.count_cons, ih]
    · simp only [pySplitChar, if_neg h]
      rcases hr : pySplitChar sep rest with _ | ⟨g, gs⟩
      · exact absurd hr (pySplitChar_ne_nil sep rest)
      · rw [hr] at ih
        simp only [List.length_cons] at ih ⊢
        rw [List.count_cons]
        simp [h, ← ih]

theorem head?_dropWhile (p : Char → Bool) (l : List Char) :
    ∀ c, (l.dropWhile p).head? = some c → p c = false := by
  induction l with
  | nil => intro c h; simp at h
  | cons a rest ih =>
    intro c h
    by_cases ha : p a
    · rw [List.dropWhile_cons_of_pos ha] at h
      exact ih c h
    · rw [List.dropWhile_cons_of_neg ha] at h
      simp at h
      subst h
      simpa using ha

theorem getLast?_dropWhile (p : Char → Bool) (l : List Char)
    (h : l.dropWhile p ≠ []) : (l.dropWhile p).getLast? = l.getLast? := by
  induction l with
  | nil => simp at h
  | cons a rest ih =>
    by_cases ha : p a
    · rw [List.dropWhile_cons_of_pos ha] at h ⊢
      have hrest : rest ≠ [] := by
        intro he
        rw [he] at h
        simp at h
      obtain ⟨b, t, rfl⟩ := List.exists_cons_of_ne_nil hrest
      rw [ih h, List.getLast?_cons_cons]
    · rw [List.dropWhile_cons_of_neg ha]

theorem pyStripList_getLast (p : Char → Bool) (l : List Char) :
    ∀ c, (pyStripList p l).getLast? = some c → p c = false := by
  intro c h
  unfold pyStripList at h
  rw [List.getLast?_reverse] at h
  exact head?_dropWhile p _ c h

theorem pyStripList_head (p : Char → Bool) (l : List Char) :
    ∀ c, (pyStripList p l).head? = some c → p c = false := by
  intro c h
  unfold pyStripList at h
  rw [List.head?_reverse] at h
  have hne : (l.dropWhile p).reverse.dropWhile p ≠ [] := by
    intro he
    rw [he] at h
    simp at h
  rw [getLast?_dropWhile p _ hne, List.getLast?_reverse] at h
  exact head?_dropWhile p _ c h

/-! ### C4: the Files field -/

/-- C4, counterexample: the claim says an empty or decoration-only Files
field yields an empty list, never a one-element list containing an empty
string, and that quote decoration is trimmed.  In the code a field holding a
single backtick yields `[""]`, and surrounding single quotes survive
untrimmed. -/
theorem c4_files_field_counterexample :
    fileListOfField "\x60" = [""] ∧ ([""] : List String) ≠ [] ∧
      fileListOfField "\x27a.py\x27" = ["\x27a.py\x27"] ∧ ("\x27a.py\x27" : String) ≠ "a.py" := by
  refine ⟨by decide, by decide, by decide, by decide⟩

/-- C4 (amended): the parser splits the Files value on commas and trims
whitespace and then surrounding backticks (not quotes) from each entry; the
result is empty exactly when the stripped field is empty, entries never
begin or end with a backtick, and a non-empty stripped field yields one
entry per comma-separated piece — so a decoration-only field yields a
one-element list containing the empty string rather than an empty list. -/
theorem c4_files_field_amended (s : String) :
    (fileListOfField s = [] ↔ pyStripList isPySpace s.data = []) ∧
    (∀ f ∈ fileListOfField s, ∀ c : Char,
      (f.data.head? = some c → c ≠ '\x60') ∧ (f.data.getLast? = some c → c ≠ '\x60')) ∧
    (pyStripList isPySpace s.data ≠ [] →
      (fileListOfField s).length = (pyStripList isPySpace s.data).count ',' + 1) := by
  refine ⟨?_, ?_, ?_⟩
  · by_cases h : pyStripList isPySpace s.data = []
    · simp [fileListOfField, h]
    · simp only [fileListOfField, if_neg h]
      simp only [List.map_eq_nil_iff, h, iff_false]
      exact pySplitChar_ne_nil ',' _
  · intro f hf c
    by_cases h : pyStripList isPySpace s.data = []
    · simp [fileListOfField, h] at hf
    · simp only [fileListOfField, if_neg h, List.mem_map] at hf
      obtain ⟨l, _, rfl⟩ := hf
      constructor
      · intro hh
        have := pyStripList_head (fun c => c = '\x60') _ c hh
        simpa using this
      · intro hh
        have := pyStripList_getLast (fun c => c = '\x60') _ c hh
        simpa using this
  · intro h
    simp only [fileListOfField, if_neg h, List.length_map]
    exact pySplitChar_length ',' _

/-- C4, witness: the amended theorem evaluated on the field
value `"x, \x60y\x60"`, whose stripped text is non-empty and whose second
entry is produced by backtick-stripping. -/
theorem c4_files_field_witness :
    (fileListOfField "x, \x60y\x60").length =
        (pyStripList isPySpace ("x, \x60y\x60").data).count ',' + 1 ∧
      ('y' : Char) ≠ '\x60' :=
  ⟨(c4_files_field_amended "x, \x60y\x60").2.2 (by decide),
   ((c4_files_field_amended "x, \x60y\x60").2.1 "y" (by decide) 'y').1 (by decide)⟩

/-! ### Structure of the validator's finding lists -/

theorem mem_ite_singleton {c : Prop} [Decidable c] {x f : Finding} :
    (f ∈ if c then [x] else []) ↔ c ∧ f = x := by
  split <;> simp [*]

theorem mem_taskIssues {nums : List Nat} {t : TaskRec} {f : Finding} :
    f ∈ taskIssues nums t ↔
      (3 < t.fileCount ∧ f = atomicFinding t) ∨
      (t.doneWhen = "" ∧ f = doneFinding t) ∨
      (∃ d ∈ t.preconditions, d ∉ nums ∧ f = precondFinding t d) ∨
      (t.complexity = "" ∧ f = complexityFinding t) := by
  unfold taskIssues
  simp only [List.mem_append, mem_ite_singleton, List.mem_map, List.mem_filter,
    decide_eq_true_eq, or_assoc]
  constructor
  · rintro (h1 | h2 | ⟨d, ⟨hd1, hd2⟩, rfl⟩ | h4)
    · exact Or.inl h1
    · exact Or.inr (Or.inl h2)
    · exact Or.inr (Or.inr (Or.inl ⟨d, hd1, hd2, rfl⟩))
    · exact Or.inr (Or.inr (Or.inr h4))
  · rintro (h1 | h2 | ⟨d, hd1, hd2, rfl⟩ | h4)
    · exact Or.inl h1
    · exact Or.inr (Or.inl h2)
    · exact Or.inr (Or.inr (Or.inl ⟨d, ⟨hd1, hd2⟩, rfl⟩))
    · exact Or.inr (Or.inr (Or.inr h4))

theorem mem_taskWarnings {order : List String} {t : TaskRec} {f : Finding} :
    f ∈ taskWarnings order t ↔
      ((t.doneWhen ≠ "" ∧
          pyLowerList t.doneWhen.data ∈ ["tbd".data, "todo".data, "n/a".data]) ∧
        f = placeholderFinding t) ∨
      (t.hasSteps = false ∧ f = stepsFinding t) ∨
      ((t.complexity ≠ "" ∧ ¬ t.complexity ∈ order) ∧ f = complexityWarnFinding order t) ∨
      ((t.files = [] ∨ t.files = [""]) ∧ f = filesFinding t) := by
  unfold taskWarnings
  by_cases h1 : t.doneWhen ≠ "" ∧
      pyLowerList t.doneWhen.data ∈ ["tbd".data, "todo".data, "n/a".data] <;>
    by_cases h2 : t.hasSteps <;>
    by_cases h3 : t.complexity ≠ "" ∧ ¬ t.complexity ∈ order <;>
    by_cases h4 : t.files = [] ∨ t.files = [""] <;>
    simp [h1, h2, h3, h4, List.mem_append]

theorem taskIssues_fields {nums : List Nat} {t : TaskRec} {f : Finding}
    (h : f ∈ taskIssues nums t) :
    f.task = t.num ∧ f.severity = "error" ∧
      (f.rule = "atomic_scope" ∨ f.rule = "verifiable" ∨ f.rule = "preconditions" ∨
        f.rule = "complexity") := by
  rcases mem_taskIssues.mp h with ⟨_, rfl⟩ | ⟨_, rfl⟩ | ⟨d, _, _, rfl⟩ | ⟨_, rfl⟩ <;>
    simp [atomicFinding, doneFinding, precondFinding, complexityFinding]

theorem taskWarnings_fields {order : List String} {t : TaskRec} {f : Finding}
    (h : f ∈ taskWarnings order t) :
    f.task = t.num ∧ f.severity = "warning" ∧
      (f.rule = "verifiable" ∨ f.rule = "steps" ∨ f.rule = "complexity" ∨
        f.rule = "files") := by
  rcases mem_taskWarnings.mp h with ⟨_, rfl⟩ | ⟨_, rfl⟩ | ⟨_, rfl⟩ | ⟨_, rfl⟩ <;>
    simp [placeholderFinding, stepsFinding, complexityWarnFinding, filesFinding]

theorem issues_eq (order : List String) (tasks : List TaskRec) :
    (validate_tasksO order tasks).issues =
      (tasks.map (taskIssues (tasks.map (fun t => t.num)))).flatten ++
        (detect_cycles tasks).map cycleIssue := rfl

theorem warningsList_eq (order : List String) (tasks : List TaskRec) :
    (validate_tasksO order tasks).warningsList =
      (tasks.map (taskWarnings order)).flatten := rfl

theorem mem_issues {order : List String} {tasks : List TaskRec} {f : Finding} :
    f ∈ (validate_tasksO order tasks).issues ↔
      (∃ t ∈ tasks, f ∈ taskIssues (tasks.map (fun t => t.num)) t) ∨
      (∃ c ∈ detect_cycles tasks, f = cycleIssue c) := by
  rw [issues_eq]
  simp only [List.mem_append, List.mem_flatten, List.mem_map]
  constructor
  · rintro (⟨l, ⟨t, ht, rfl⟩, hf⟩ | ⟨c, hc, rfl⟩)
    · exact Or.inl ⟨t, ht, hf⟩
    · exact Or.inr ⟨c, hc, rfl⟩
  · rintro (⟨t, ht, hf⟩ | ⟨c, hc, rfl⟩)
    · exact Or.inl ⟨_, ⟨t, ht, rfl⟩, hf⟩
    · exact Or.inr ⟨c, hc, rfl⟩

theorem mem_warningsList {order : List String} {tasks : List TaskRec} {f : Finding} :
    f ∈ (validate_tasksO order tasks).warningsList ↔
      ∃ t ∈ tasks, f ∈ taskWarnings order t := by
  rw [warningsList_eq]
  simp only [List.mem_flatten, List.mem_map]
  constructor
  · rintro ⟨l, ⟨t, ht, rfl⟩, hf⟩
    exact ⟨t, ht, hf⟩
  · rintro ⟨t, ht, hf⟩
    exact ⟨_, ⟨t, ht, rfl⟩, hf⟩

/-- With pairwise distinct task numbers, a member task is determined by its
number. -/
theorem num_inj {tasks : List TaskRec}
    (hnd : (tasks.map (fun t => t.num)).Nodup) :
    ∀ {a b : TaskRec}, a ∈ tasks → b ∈ tasks → a.num = b.num → a = b := by
  induction tasks with
  | nil => intro a b ha; cases ha
  | cons x rest ih =>
    simp only [List.map_cons, List.nodup_cons] at hnd
    intro a b ha hb he
    rcases List.mem_cons.mp ha with rfl | ha' <;> rcases List.mem_cons.mp hb with rfl | hb'
    · rfl
    · exact absurd (he ▸ List.mem_map_of_mem (fun t => t.num) hb') hnd.1
    · exact absurd (he ▸ List.mem_map_of_mem (fun t => t.num) ha') hnd.1
    · exact ih hnd.2 ha' hb' he

theorem flatten_filter_eq_nil {p : Finding → Bool} {L : List (List Finding)}
    (h : ∀ l ∈ L, l.filter p = []) : L.flatten.filter p = [] := by
  rw [List.filter_flatten]
  apply List.flatten_eq_nil_iff.mpr
  intro l hl
  rcases List.mem_map.mp hl with ⟨l', hl', rfl⟩
  exact h l' hl'

/-- Filtering the concatenated per-task lists with a predicate that is false
on every other task's findings leaves exactly the distinguished task's
filtered findings. -/
theorem flatten_filter_single {g : TaskRec → List Finding} {p : Finding → Bool}
    {tasks : List TaskRec} {t : TaskRec}
    (hnd : (tasks.map (fun x => x.num)).Nodup) (ht : t ∈ tasks)
    (hother : ∀ t' ∈ tasks, t'.num ≠ t.num → (g t').filter p = []) :
    ((tasks.map g).flatten).filter p = (g t).filter p := by
  induction tasks with
  | nil => cases ht
  | cons a rest ih =>
    simp only [List.map_cons, List.nodup_cons] at hnd
    simp only [List.map_cons, List.flatten_cons, List.filter_append]
    rcases List.mem_cons.mp ht with rfl | hmem
    · have hrest : ((rest.map g).flatten).filter p = [] := by
        apply flatten_filter_eq_nil
        intro l hl
        rcases List.mem_map.mp hl with ⟨t', ht', rfl⟩
        apply hother t' (List.mem_cons_of_mem _ ht')
        intro he
        exact hnd.1 (he ▸ List.mem_map_of_mem (fun x => x.num) ht')
      rw [hrest, List.append_nil]
    · have ha : a.num ≠ t.num := by
        intro he
        exact hnd.1 (he ▸ List.mem_map_of_mem (fun x => x.num) hmem)
      rw [hother a (List.mem_cons_self a rest) ha,
        ih hnd.2 hmem (fun t' ht' => hother t' (List.mem_cons_of_mem _ ht')),
        List.nil_append]

/-! ### Filtering the validator's findings by task and rule -/

theorem filter_ite_of_false {c : Prop} [Decidable c] {p : Finding → Bool} {x : Finding}
    (h : p x = false) : (if c then [x] else []).filter p = [] := by
  split <;> simp [h]

theorem filter_ite_of_true {c : Prop} [Decidable c] {p : Finding → Bool} {x : Finding}
    (h : p x = true) : (if c then [x] else []).filter p = if c then [x] else [] := by
  split <;> simp [h]

theorem taskIssues_filter_pre (nums : List Nat) (t : TaskRec) :
    (taskIssues nums t).filter (fun f => f.task == t.num && f.rule == "preconditions") =
      (t.preconditions.filter (fun d => decide (¬ d ∈ nums))).map (precondFinding t) := by
  unfold taskIssues
  rw [List.filter_append, List.filter_append, List.filter_append,
    filter_ite_of_false (by simp [atomicFinding]),
    filter_ite_of_false (by simp [doneFinding]),
    filter_ite_of_false (by simp [complexityFinding]),
    List.filter_map, List.filter_eq_self.mpr (by intro a _; simp [precondFinding])]
  simp

theorem taskIssues_filter_atomic (nums : List Nat) (t : TaskRec) :
    (taskIssues nums t).filter (fun f => f.task == t.num && f.rule == "atomic_scope") =
      if 3 < t.fileCount then [atomicFinding t] else [] := by
  unfold taskIssues
  rw [List.filter_append, List.filter_append, List.filter_append,
    filter_ite_of_true (by simp [atomicFinding]),
    filter_ite_of_false (by simp [doneFinding]),
    filter_ite_of_false (by simp [complexityFinding]),
    List.filter_map, List.filter_eq_nil_iff.mpr (by intro a _; simp [precondFinding])]
  simp

theorem taskIssues_filter_other (nums : List Nat) (t t' : TaskRec) (r : String)
    (h : t'.num ≠ t.num) :
    (taskIssues nums t').filter (fun f => f.task == t.num && f.rule == r) = [] := by
  apply List.filter_eq_nil_iff.mpr
  intro f hf
  have := (taskIssues_fields hf).1
  simp [this, h]

theorem cycleIssues_filter (cs : List (List Nat)) (n : Nat) (r : String)
    (h : r ≠ "acyclic") :
    (cs.map cycleIssue).filter (fun f => f.task == n && f.rule == r) = [] := by
  apply List.filter_eq_nil_iff.mpr
  intro f hf
  rcases List.mem_map.mp hf with ⟨c, _, rfl⟩
  simp [cycleIssue, Ne.symm h]

/-- The findings for a member task `t` under a non-cycle rule `r` are exactly
the filtered per-task findings of `t`. -/
theorem findingsFor_issues (order : List String) {tasks : List TaskRec} {t : TaskRec}
    (hnd : (tasks.map (fun x => x.num)).Nodup) (ht : t ∈ tasks) (r : String)
    (hr : r ≠ "acyclic") :
    findingsFor (validate_tasksO order tasks).issues t.num r =
      (taskIssues (tasks.map (fun x => x.num)) t).filter
        (fun f => f.task == t.num && f.rule == r) := by
  unfold findingsFor
  rw [issues_eq, List.filter_append, cycleIssues_filter _ _ _ hr, List.append_nil]
  exact flatten_filter_single hnd ht
    (fun t' _ hne => taskIssues_filter_other _ t t' r hne)

theorem filter_acyclic (order : List String) (tasks : List TaskRec) :
    (validate_tasksO order tasks).issues.filter (fun f => f.rule == "acyclic") =
      (detect_cycles tasks).map cycleIssue := by
  rw [issues_eq, List.filter_append]
  have h1 : ((tasks.map (taskIssues (tasks.map (fun t => t.num)))).flatten).filter
      (fun f => f.rule == "acyclic") = [] := by
    apply flatten_filter_eq_nil
    intro l hl
    rcases List.mem_map.mp hl with ⟨t, _, rfl⟩
    apply List.filter_eq_nil_iff.mpr
    intro f hf
    rcases (taskIssues_fields hf).2.2 with h | h | h | h <;> simp [h]
  have h2 : ((detect_cycles tasks).map cycleIssue).filter (fun f => f.rule == "acyclic") =
      (detect_cycles tasks).map cycleIssue := by
    apply List.filter_eq_self.mpr
    intro f hf
    rcases List.mem_map.mp hf with ⟨c, _, rfl⟩
    simp [cycleIssue]
  rw [h1, h2, List.nil_append]

/-! ### C1, C2: cycle detection on a 2-cycle and on a linear chain -/

/-- C1: on a plan of exactly two tasks forming a direct 2-cycle (Task 1
depends on Task 2 and Task 2 on Task 1), the recorded cycle is the path
slice `[1, 2, 1]` — the closed walk from the repeated node's first
occurrence through the repeated node — and the validator emits exactly one
`acyclic` error finding, whose message names both task numbers. -/
theorem c1_two_cycle (t1 t2 : TaskRec) (h1 : t1.num = 1) (h2 : t2.num = 2)
    (hp1 : t1.preconditions = [2]) (hp2 : t2.preconditions = [1]) :
    detect_cycles [t1, t2] = [[1, 2, 1]] ∧
      (validate_tasks [t1, t2]).issues.filter (fun f => f.rule == "acyclic") =
        [⟨1, "acyclic", "error",
          "Circular dependency detected: Task 1 -> Task 2 -> Task 1"⟩] := by
  have hg : pyGraph [t1, t2] = [(1, [2]), (2, [1])] := by
    simp [pyGraph, h1, h2, hp1, hp2]
  have hc : detect_cycles [t1, t2] = [[1, 2, 1]] := by
    unfold detect_cycles
    rw [hg]
    decide
  refine ⟨hc, ?_⟩
  show (validate_tasksO validComplexities [t1, t2]).issues.filter
      (fun f => f.rule == "acyclic") = _
  rw [filter_acyclic, hc]
  decide

/-- C1, witness: the 2-cycle scenario on concrete task records. -/
theorem c1_two_cycle_witness :
    detect_cycles [wTask 1 [2], wTask 2 [1]] = [[1, 2, 1]] ∧
      (validate_tasks [wTask 1 [2], wTask 2 [1]]).issues.filter
          (fun f => f.rule == "acyclic") =
        [⟨1, "acyclic", "error",
          "Circular dependency detected: Task 1 -> Task 2 -> Task 1"⟩] :=
  c1_two_cycle (wTask 1 [2]) (wTask 2 [1]) rfl rfl rfl rfl

/-! ### C6: internal consistency of the result record -/

/-- C6: for every parsed task sequence the result satisfies
`errors = issues.length`, `warnings = warnings_list.length` and
`passed ↔ errors = 0`; the error count counts the per-task error findings
plus the cycle findings, and the warning list never enters `passed`. -/
theorem c6_result_counts (tasks : List TaskRec) :
    (validate_tasks tasks).errors = (validate_tasks tasks).issues.length ∧
    (validate_tasks tasks).warnings = (validate_tasks tasks).warningsList.length ∧
    ((validate_tasks tasks).passed = true ↔ (validate_tasks tasks).errors = 0) ∧
    (validate_tasks tasks).errors =
      ((tasks.map (taskIssues (tasks.map (fun t => t.num)))).flatten).length +
        (detect_cycles tasks).length := by
  refine ⟨rfl, rfl, ?_, ?_⟩
  · show ((((tasks.map (taskIssues _)).flatten ++ _).length == 0) = true ↔ _)
    simp [validate_tasks, validate_tasksO]
  · show ((tasks.map (taskIssues _)).flatten ++ (detect_cycles tasks).map cycleIssue).length = _
    rw [List.length_append, List.length_map]

/-! ### C3: dangling precondition references -/

/-- C3, counterexample: the claim says a task whose preconditions reference
an absent task number yields exactly one `preconditions` error, however the
dangling dependency is written.  Writing the same dangling reference twice
("Task 9 and Task 9") parses to `[9, 9]` and the validator emits one error
per occurrence: two findings, not one. -/
theorem c3_dangling_counterexample :
    parsePrecondsField "Task 9 and Task 9" = [9, 9] ∧
      (findingsFor
          (validate_tasks [wTask 1 (parsePrecondsField "Task 9 and Task 9")]).issues
          1 "preconditions").length = 2 := by
  constructor
  · decide
  · decide

/-- C3 (amended): with pairwise distinct task numbers, a task's
`preconditions` error findings are exactly one finding per occurrence of a
dangling number in its parsed precondition list — in particular exactly one
when a dangling number is referenced once, regardless of how many other
tasks exist. -/
theorem c3_dangling_amended (tasks : List TaskRec) (t : TaskRec)
    (hnd : (tasks.map (fun x => x.num)).Nodup) (ht : t ∈ tasks) :
    findingsFor (validate_tasks tasks).issues t.num "preconditions" =
      (t.preconditions.filter
        (fun d => decide (¬ d ∈ tasks.map (fun x => x.num)))).map (precondFinding t) ∧
    (findingsFor (validate_tasks tasks).issues t.num "preconditions").length =
      (t.preconditions.filter
        (fun d => decide (¬ d ∈ tasks.map (fun x => x.num)))).length := by
  have h := findingsFor_issues validComplexities hnd ht "preconditions" (by decide)
  rw [taskIssues_filter_pre] at h
  exact ⟨h, by rw [show findingsFor (validate_tasks tasks).issues t.num "preconditions" =
    _ from h, List.length_map]⟩

/-- C3, witness: a single task referencing the absent Task 9 once gets
exactly one `preconditions` finding. -/
theorem c3_dangling_witness :
    findingsFor (validate_tasks [wTask 1 [9]]).issues 1 "preconditions" =
        [precondFinding (wTask 1 [9]) 9] ∧
      (findingsFor (validate_tasks [wTask 1 [9]]).issues 1 "preconditions").length = 1 :=
  c3_dangling_amended [wTask 1 [9]] (wTask 1 [9]) (by decide) (by decide)

/-! ### C7: atomic-scope rule -/

/-- C7: a task with more than 3 files gets exactly one `atomic_scope`
finding, an error, and never an `atomic_scope` warning; and the end-to-end
scenario (one task, files `a.py, b.py, c.py, d.py`, done-when `tests pass`,
complexity `small`, preconditions `none`, no steps) validates to exactly one
error (atomic scope), only the missing-steps warning, and `passed = false`. -/
theorem c7_atomic_scope :
    (∀ (tasks : List TaskRec) (t : TaskRec),
      (tasks.map (fun x => x.num)).Nodup → t ∈ tasks → 3 < t.fileCount →
      findingsFor (validate_tasks tasks).issues t.num "atomic_scope" =
          [atomicFinding t] ∧
        (atomicFinding t).severity = "error" ∧
        findingsFor (validate_tasks tasks).warningsList t.num "atomic_scope" = []) ∧
    validate_tasks [c7ScenarioTask] =
      ⟨1, 1, 1, [atomicFinding c7ScenarioTask], [stepsFinding c7ScenarioTask], false⟩ := by
  constructor
  · intro tasks t hnd ht hfc
    refine ⟨?_, rfl, ?_⟩
    · have h := findingsFor_issues validComplexities hnd ht "atomic_scope" (by decide)
      rw [taskIssues_filter_atomic, if_pos hfc] at h
      exact h
    · apply List.filter_eq_nil_iff.mpr
      intro f hf
      have hf' : f ∈ (validate_tasksO validComplexities tasks).warningsList := hf
      rcases mem_warningsList.mp hf' with ⟨t', _, hw⟩
      rcases (taskWarnings_fields hw).2.2 with h | h | h | h <;> simp [h]
  · decide

/-- C7, witness: the general rule applied to the scenario task itself. -/
theorem c7_atomic_scope_witness :
    findingsFor (validate_tasks [c7ScenarioTask]).issues 1 "atomic_scope" =
        [atomicFinding c7ScenarioTask] ∧
      (atomicFinding c7ScenarioTask).severity = "error" ∧
      findingsFor (validate_tasks [c7ScenarioTask]).warningsList 1 "atomic_scope" = [] :=
  c7_atomic_scope.1 [c7ScenarioTask] c7ScenarioTask (by decide) (by decide) (by decide)

/-! ### C8: the "none" preconditions marker -/

/-- C8: a Preconditions field whose stripped text lowers to exactly `none`
parses to the empty precondition list; any other field parses to exactly the
numbers matched by the `Task <n>` reference pattern in its stripped text;
and in a two-task plan where Task 2's field is the literal `none`, Task 2's
precondition set is empty and Task 2 gets no `preconditions` error, even
though Task 1 exists. -/
theorem c8_preconditions_none :
    (∀ s : String, pyLowerList (pyStripList isPySpace s.data) = "none".data →
      parsePrecondsField s = []) ∧
    (∀ s : String, pyLowerList (pyStripList isPySpace s.data) ≠ "none".data →
      parsePrecondsField s = findTaskRefs (pyStripList isPySpace s.data)) ∧
    (∀ t1 t2 : TaskRec, t1.num = 1 → t2.num = 2 →
      t2.preconditions = parsePrecondsField "none" →
      t2.preconditions = [] ∧
        findingsFor (validate_tasks [t1, t2]).issues 2 "preconditions" = []) := by
  refine ⟨?_, ?_, ?_⟩
  · intro s h
    simp [parsePrecondsField, h]
  · intro s h
    simp [parsePrecondsField, h]
  · intro t1 t2 h1 h2 hp
    have hpre : t2.preconditions = [] := by rw [hp]; decide
    refine ⟨hpre, ?_⟩
    have hnd : (([t1, t2].map (fun x => x.num))).Nodup := by simp [h1, h2]
    have ht : t2 ∈ [t1, t2] := by simp
    have h := findingsFor_issues validComplexities hnd ht "preconditions" (by decide)
    rw [taskIssues_filter_pre, hpre] at h
    rw [h2] at h
    simpa using h

/-- C8, witness: the three parts applied at concrete inputs: a cased and
padded `none`, a non-`none` field, and the two-task scenario. -/
theorem c8_preconditions_none_witness :
    parsePrecondsField " NoNe " = [] ∧
      parsePrecondsField "after Task 3" =
        findTaskRefs (pyStripList isPySpace ("after Task 3").data) ∧
      (wTask 2 (parsePrecondsField "none")).preconditions = [] ∧
      findingsFor
        (validate_tasks [wTask 1 [], wTask 2 (parsePrecondsField "none")]).issues
        2 "preconditions" = [] :=
  ⟨c8_preconditions_none.1 " NoNe " (by decide),
   c8_preconditions_none.2.1 "after Task 3" (by decide),
   c8_preconditions_none.2.2 (wTask 1 []) (wTask 2 (parsePrecondsField "none"))
     rfl rfl rfl⟩

/-! ### C5: every rule is evaluated against every task -/

theorem hasFinding_issues_iff {tasks : List TaskRec} {t : TaskRec}
    (hnd : (tasks.map (fun x => x.num)).Nodup) (ht : t ∈ tasks) (r : String)
    (hr : r ≠ "acyclic") :
    hasFinding (validate_tasks tasks).issues t.num r ↔
      ∃ f ∈ taskIssues (tasks.map (fun x => x.num)) t, f.rule = r := by
  unfold hasFinding
  constructor
  · rintro ⟨f, hf, hft, hfr⟩
    have hf' : f ∈ (validate_tasksO validComplexities tasks).issues := hf
    rcases mem_issues.mp hf' with ⟨t'', ht'', hf''⟩ | ⟨c, _, rfl⟩
    · have he : t''.num = t.num := by rw [← (taskIssues_fields hf'').1, hft]
      have : t'' = t := num_inj hnd ht'' ht he
      exact ⟨f, this ▸ hf'', hfr⟩
    · exact absurd hfr.symm hr
  · rintro ⟨f, hf, hfr⟩
    refine ⟨f, ?_, (taskIssues_fields hf).1, hfr⟩
    exact (@mem_issues validComplexities tasks f).mpr (Or.inl ⟨t, ht, hf⟩)

theorem hasFinding_warnings_iff {tasks : List TaskRec} {t : TaskRec}
    (hnd : (tasks.map (fun x => x.num)).Nodup) (ht : t ∈ tasks) (r : String) :
    hasFinding (validate_tasks tasks).warningsList t.num r ↔
      ∃ f ∈ taskWarnings validComplexities t, f.rule = r := by
  unfold hasFinding
  constructor
  · rintro ⟨f, hf, hft, hfr⟩
    have hf' : f ∈ (validate_tasksO validComplexities tasks).warningsList := hf
    rcases mem_warningsList.mp hf' with ⟨t'', ht'', hf''⟩
    have he : t''.num = t.num := by rw [← (taskWarnings_fields hf'').1, hft]
    have : t'' = t := num_inj hnd ht'' ht he
    exact ⟨f, this ▸ hf'', hfr⟩
  · rintro ⟨f, hf, hfr⟩
    refine ⟨f, ?_, (taskWarnings_fields hf).1, hfr⟩
    exact (@mem_warningsList validComplexities tasks f).mpr ⟨t, ht, hf⟩

/-- C5: the validator evaluates every rule against every member task and
collects findings exhaustively: for a task with a distinct number, each
rule's finding is present exactly when that rule's condition holds on the
task, independently of all other rules and tasks.  (Totality — "never
raises" — holds by construction: `validate_tasks` is a total function into
`ValidationResult`.) -/
theorem c5_exhaustive_rules (tasks : List TaskRec) (t : TaskRec)
    (hnd : (tasks.map (fun x => x.num)).Nodup) (ht : t ∈ tasks) :
    (hasFinding (validate_tasks tasks).issues t.num "atomic_scope" ↔
      3 < t.fileCount) ∧
    (hasFinding (validate_tasks tasks).issues t.num "verifiable" ↔
      t.doneWhen = "") ∧
    (hasFinding (validate_tasks tasks).warningsList t.num "verifiable" ↔
      (t.doneWhen ≠ "" ∧
        pyLowerList t.doneWhen.data ∈ ["tbd".data, "todo".data, "n/a".data])) ∧
    (hasFinding (validate_tasks tasks).warningsList t.num "steps" ↔
      t.hasSteps = false) ∧
    (hasFinding (validate_tasks tasks).issues t.num "preconditions" ↔
      ∃ d ∈ t.preconditions, ¬ d ∈ tasks.map (fun x => x.num)) ∧
    (hasFinding (validate_tasks tasks).issues t.num "complexity" ↔
      t.complexity = "") ∧
    (hasFinding (validate_tasks tasks).warningsList t.num "complexity" ↔
      (t.complexity ≠ "" ∧ ¬ t.complexity ∈ validComplexities)) ∧
    (hasFinding (validate_tasks tasks).warningsList t.num "files" ↔
      (t.files = [] ∨ t.files = [""])) := by
  refine ⟨?_, ?_, ?_, ?_, ?_, ?_, ?_, ?_⟩
  · rw [hasFinding_issues_iff hnd ht _ (by decide)]
    constructor
    · rintro ⟨f, hf, hfr⟩
      rcases mem_taskIssues.mp hf with ⟨hc, rfl⟩ | ⟨hc, rfl⟩ | ⟨d, hd, hdg, rfl⟩ | ⟨hc, rfl⟩
      · exact hc
      · simp [doneFinding] at hfr
      · simp [precondFinding] at hfr
      · simp [complexityFinding] at hfr
    · intro hc
      exact ⟨atomicFinding t, mem_taskIssues.mpr (Or.inl ⟨hc, rfl⟩), rfl⟩
  · rw [hasFinding_issues_iff hnd ht _ (by decide)]
    constructor
    · rintro ⟨f, hf, hfr⟩
      rcases mem_taskIssues.mp hf with ⟨hc, rfl⟩ | ⟨hc, rfl⟩ | ⟨d, hd, hdg, rfl⟩ | ⟨hc, rfl⟩
      · simp [atomicFinding] at hfr
      · exact hc
      · simp [precondFinding] at hfr
      · simp [complexityFinding] at hfr
    · intro hc
      exact ⟨doneFinding t, mem_taskIssues.mpr (Or.inr (Or.inl ⟨hc, rfl⟩)), rfl⟩
  · rw [hasFinding_warnings_iff hnd ht]
    simp +decide [mem_taskWarnings, placeholderFinding, stepsFinding,
      complexityWarnFinding, filesFinding, or_and_right, exists_or, and_assoc,
      exists_eq_left, exists_exists_and_eq_and]
  · rw [hasFinding_warnings_iff hnd ht]
    simp +decide [mem_taskWarnings, placeholderFinding, stepsFinding,
      complexityWarnFinding, filesFinding, or_and_right, exists_or, and_assoc,
      exists_eq_left, exists_exists_and_eq_and]
  · rw [hasFinding_issues_iff hnd ht _ (by decide)]
    constructor
    · rintro ⟨f, hf, hfr⟩
      rcases mem_taskIssues.mp hf with ⟨hc, rfl⟩ | ⟨hc, rfl⟩ | ⟨d, hd, hdg, rfl⟩ | ⟨hc, rfl⟩
      · simp [atomicFinding] at hfr
      · simp [doneFinding] at hfr
      · exact ⟨d, hd, hdg⟩
      · simp [complexityFinding] at hfr
    · rintro ⟨d, hd, hdg⟩
      exact ⟨precondFinding t d,
        mem_taskIssues.mpr (Or.inr (Or.inr (Or.inl ⟨d, hd, hdg, rfl⟩))), rfl⟩
  · rw [hasFinding_issues_iff hnd ht _ (by decide)]
    constructor
    · rintro ⟨f, hf, hfr⟩
      rcases mem_taskIssues.mp hf with ⟨hc, rfl⟩ | ⟨hc, rfl⟩ | ⟨d, hd, hdg, rfl⟩ | ⟨hc, rfl⟩
      · simp [atomicFinding] at hfr
      · simp [doneFinding] at hfr
      · simp [precondFinding] at hfr
      · exact hc
    · intro hc
      exact ⟨complexityFinding t, mem_taskIssues.mpr (Or.inr (Or.inr (Or.inr ⟨hc, rfl⟩))), rfl⟩
  · rw [hasFinding_warnings_iff hnd ht]
    simp +decide [mem_taskWarnings, placeholderFinding, stepsFinding,
      complexityWarnFinding, filesFinding, or_and_right, exists_or, and_assoc,
      exists_eq_left, exists_exists_and_eq_and]
  · rw [hasFinding_warnings_iff hnd ht]
    simp +decide [mem_taskWarnings, placeholderFinding, stepsFinding,
      complexityWarnFinding, filesFinding, or_and_right, exists_or, and_assoc,
      exists_eq_left, exists_exists_and_eq_and]

/-- C5, witness: the rule characterisations evaluated on a single task that
violates several rules at once. -/
theorem c5_exhaustive_rules_witness :
    (hasFinding (validate_tasks [w5Task]).issues w5Task.num "atomic_scope" ↔
      3 < w5Task.fileCount) ∧
    (hasFinding (validate_tasks [w5Task]).issues w5Task.num "verifiable" ↔
      w5Task.doneWhen = "") ∧
    (hasFinding (validate_tasks [w5Task]).warningsList w5Task.num "verifiable" ↔
      (w5Task.doneWhen ≠ "" ∧
        pyLowerList w5Task.doneWhen.data ∈ ["tbd".data, "todo".data, "n/a".data])) ∧
    (hasFinding (validate_tasks [w5Task]).warningsList w5Task.num "steps" ↔
      w5Task.hasSteps = false) ∧
    (hasFinding (validate_tasks [w5Task]).issues w5Task.num "preconditions" ↔
      ∃ d ∈ w5Task.preconditions, ¬ d ∈ [w5Task].map (fun x => x.num)) ∧
    (hasFinding (validate_tasks [w5Task]).issues w5Task.num "complexity" ↔
      w5Task.complexity = "") ∧
    (hasFinding (validate_tasks [w5Task]).warningsList w5Task.num "complexity" ↔
      (w5Task.complexity ≠ "" ∧ ¬ w5Task.complexity ∈ validComplexities)) ∧
    (hasFinding (validate_tasks [w5Task]).warningsList w5Task.num "files" ↔
      (w5Task.files = [] ∨ w5Task.files = [""])) :=
  c5_exhaustive_rules [w5Task] w5Task (by decide) (by decide)

/-! ### C9: determinism and the complexity-set iteration order -/

theorem taskWarnings_core (o1 o2 : List String)
    (hm : ∀ x : String, x ∈ o1 ↔ x ∈ o2) (t : TaskRec) :
    (taskWarnings o1 t).map findingCore = (taskWarnings o2 t).map findingCore := by
  unfold taskWarnings
  have h3 : ((if t.complexity ≠ "" ∧ ¬ t.complexity ∈ o1
        then [complexityWarnFinding o1 t] else []).map findingCore) =
      ((if t.complexity ≠ "" ∧ ¬ t.complexity ∈ o2
        then [complexityWarnFinding o2 t] else []).map findingCore) := by
    by_cases hc : t.complexity ≠ "" ∧ ¬ t.complexity ∈ o1
    · rw [if_pos hc, if_pos ⟨hc.1, fun hmem => hc.2 ((hm _).mpr hmem)⟩]
      simp [findingCore, complexityWarnFinding]
    · rw [if_neg hc, if_neg (fun hc2 => hc ⟨hc2.1, fun hmem => hc2.2 ((hm _).mp hmem)⟩)]
  simp only [List.map_append, h3]

/-- C9, counterexample: the claim says re-running validation yields an
identical result with no ordering dependence, including in the
non-standard-complexity warning message built from the complexity set.  But
that message joins a Python set (`', '.join(VALID_COMPLEXITIES)`) whose
iteration order is an unspecified property of the interpreter run (string
hashing is randomised across processes): two legitimate enumeration orders
of the same set yield different ValidationResults. -/
theorem c9_determinism_counterexample :
    List.Perm ["small", "trivial", "medium", "large"] validComplexities ∧
      validate_tasksO ["small", "trivial", "medium", "large"] [c9Task] ≠
        validate_tasksO validComplexities [c9Task] := by
  constructor
  · decide
  · decide

/-- C9 (amended): for a fixed enumeration order of the complexity set the
validator is a pure function, and everything in the result except the
free-text messages — counts, pass flag, and the task, rule and severity of
every finding, in order — is independent of the enumeration order; only the
non-standard-complexity warning's message text depends on it. -/
theorem c9_determinism_amended (o1 o2 : List String) (h1 : o1.Perm validComplexities)
    (h2 : o2.Perm validComplexities) (tasks : List TaskRec) :
    resultCore (validate_tasksO o1 tasks) = resultCore (validate_tasksO o2 tasks) := by
  have hm : ∀ x : String, x ∈ o1 ↔ x ∈ o2 := fun x =>
    (h1.mem_iff).trans (h2.mem_iff).symm
  have hw : ((validate_tasksO o1 tasks).warningsList).map findingCore =
      ((validate_tasksO o2 tasks).warningsList).map findingCore := by
    rw [warningsList_eq, warningsList_eq, List.map_flatten, List.map_flatten,
      List.map_map, List.map_map]
    congr 1
    exact List.map_congr_left (fun t _ => taskWarnings_core o1 o2 hm t)
  have hwlen : (validate_tasksO o1 tasks).warningsList.length =
      (validate_tasksO o2 tasks).warningsList.length := by
    rw [← List.length_map ((validate_tasksO o1 tasks).warningsList) findingCore, hw,
      List.length_map]
  unfold resultCore
  simp only [Prod.mk.injEq]
  exact ⟨rfl, rfl, hwlen, rfl, hw, rfl⟩

/-- C9, witness: two enumeration orders of the complexity set give results
with identical cores on a task with non-standard complexity. -/
theorem c9_determinism_witness :
    resultCore (validate_tasksO ["small", "trivial", "medium", "large"] [c9Task]) =
      resultCore (validate_tasksO validComplexities [c9Task]) :=
  c9_determinism_amended ["small", "trivial", "medium", "large"] validComplexities
    (by decide) (by decide) [c9Task]

/-! ### C10: termination and the DFS call bound -/

theorem dfsInv_refl (graph : List (Nat × List Nat)) (s : DfsState) :
    dfsInv graph s s :=
  ⟨List.Subset.refl _, Finset.subset_union_left, le_refl _⟩

theorem visited_toFinset_mono {s s' : DfsState} (h : s.visited ⊆ s'.visited) :
    s.visited.toFinset ⊆ s'.visited.toFinset :=
  fun x hx => List.mem_toFinset.mpr (h (List.mem_toFinset.mp hx))

theorem measureOf_le_of_subset (graph : List (Nat × List Nat)) {s s' : DfsState}
    (h : s.visited ⊆ s'.visited) : measureOf graph s' ≤ measureOf graph s :=
  Finset.card_le_card
    (Finset.sdiff_subset_sdiff (Finset.Subset.refl _) (visited_toFinset_mono h))

theorem dfsInv_trans {graph : List (Nat × List Nat)} {s1 s2 s3 : DfsState}
    (h12 : dfsInv graph s1 s2) (h23 : dfsInv graph s2 s3) : dfsInv graph s1 s3 := by
  refine ⟨List.Subset.trans h12.1 h23.1, ?_, le_trans h23.2.2 h12.2.2⟩
  refine h23.2.1.trans (Finset.union_subset ?_ Finset.subset_union_right)
  exact h12.2.1

theorem dfsInv_recordCycle (graph : List (Nat × List Nat)) (n : Nat) (s : DfsState) :
    dfsInv graph s (recordCycle n s) :=
  ⟨List.Subset.refl _, Finset.subset_union_left, le_refl _⟩

theorem pyDictGet_subset (graph : List (Nat × List Nat)) (k : Nat) :
    ∀ x ∈ pyDictGet graph k, x ∈ allNodesF graph := by
  intro x hx
  unfold pyDictGet at hx
  rcases hl : (graph.filter (fun p => p.1 == k)).getLast? with _ | p
  · rw [hl] at hx
    cases hx
  · rw [hl] at hx
    have hp : p ∈ graph.filter (fun p => p.1 == k) := List.mem_of_mem_getLast? hl
    have hpg : p ∈ graph := (List.mem_filter.mp hp).1
    unfold allNodesF
    rw [List.mem_toFinset]
    apply List.mem_append_right
    exact List.mem_flatten.mpr ⟨p.2, List.mem_map_of_mem _ hpg, hx⟩

theorem pyDictKeysAux_subset (l : List (Nat × List Nat)) :
    ∀ (seen : List Nat), ∀ k ∈ pyDictKeysAux seen l, k ∈ l.map Prod.fst := by
  induction l with
  | nil => intro seen k hk; cases hk
  | cons p rest ih =>
    intro seen k hk
    unfold pyDictKeysAux at hk
    by_cases hs : p.1 ∈ seen
    · simp only [hs, if_true] at hk
      exact List.mem_cons_of_mem _ (ih seen k hk)
    · simp only [hs, if_false] at hk
      rcases List.mem_cons.mp hk with rfl | hk'
      · exact List.mem_cons_self _ _
      · exact List.mem_cons_of_mem _ (ih _ k hk')

theorem keys_subset (graph : List (Nat × List Nat)) :
    ∀ k ∈ pyDictKeys graph, k ∈ allNodesF graph := by
  intro k hk
  unfold allNodesF
  rw [List.mem_toFinset]
  exact List.mem_append_left _ (pyDictKeysAux_subset graph [] k hk)

theorem dfsNeighbors_spec (graph : List (Nat × List Nat)) (fuel : Nat)
    (hnext : ∀ (n : Nat) (s : DfsState), n ∈ allNodesF graph → n ∉ s.visited →
      measureOf graph s ≤ fuel →
      ∃ s', dfsF graph fuel n s = some s' ∧ dfsInv graph s s') :
    ∀ (ns : List Nat) (s : DfsState), (∀ n ∈ ns, n ∈ allNodesF graph) →
      measureOf graph s ≤ fuel →
      ∃ s', dfsNeighbors (dfsF graph fuel) ns s = some s' ∧ dfsInv graph s s' := by
  intro ns
  induction ns with
  | nil => exact fun s _ _ => ⟨s, rfl, dfsInv_refl graph s⟩
  | cons n rest ih =>
    intro s hns hmu
    by_cases hv : n ∈ s.visited
    · have hinv2 : dfsInv graph s (if n ∈ s.recStack then recordCycle n s else s) := by
        by_cases hr : n ∈ s.recStack
        · rw [if_pos hr]; exact dfsInv_recordCycle graph n s
        · rw [if_neg hr]; exact dfsInv_refl graph s
      have hvis : (if n ∈ s.recStack then recordCycle n s else s).visited = s.visited := by
        by_cases hr : n ∈ s.recStack <;> simp [hr, recordCycle]
      obtain ⟨s', hrun, hinv⟩ := ih (if n ∈ s.recStack then recordCycle n s else s)
        (fun m hm => hns m (List.mem_cons_of_mem _ hm))
        (by unfold measureOf; rw [hvis]; exact hmu)
      refine ⟨s', ?_, dfsInv_trans hinv2 hinv⟩
      simp only [dfsNeighbors, if_pos hv]
      exact hrun
    · obtain ⟨s2, hd, hinv1⟩ := hnext n s (hns n (List.mem_cons_self _ _)) hv hmu
      obtain ⟨s', hrun, hinv2⟩ := ih s2 (fun m hm => hns m (List.mem_cons_of_mem _ hm))
        (le_trans (measureOf_le_of_subset graph hinv1.1) hmu)
      refine ⟨s', ?_, dfsInv_trans hinv1 hinv2⟩
      simp only [dfsNeighbors, if_neg hv, hd]
      exact hrun

theorem dfsF_spec (graph : List (Nat × List Nat)) :
    ∀ (fuel : Nat) (node : Nat) (s : DfsState),
      node ∈ allNodesF graph → node ∉ s.visited → measureOf graph s ≤ fuel →
      ∃ s', dfsF graph fuel node s = some s' ∧ dfsInv graph s s' := by
  intro fuel
  induction fuel with
  | zero =>
    intro node s hn hv hmu
    exfalso
    have hmem : node ∈ allNodesF graph \ s.visited.toFinset :=
      Finset.mem_sdiff.mpr ⟨hn, fun hc => hv (List.mem_toFinset.mp hc)⟩
    have hpos : 0 < measureOf graph s := Finset.card_pos.mpr ⟨node, hmem⟩
    omega
  | succ f ih =>
    intro node s hn hv hmu
    have h1 : (enterNode node s).visited = node :: s.visited := by
      simp [enterNode, hv]
    have hnodemem : node ∈ allNodesF graph \ s.visited.toFinset :=
      Finset.mem_sdiff.mpr ⟨hn, fun hc => hv (List.mem_toFinset.mp hc)⟩
    have hmu1 : measureOf graph (enterNode node s) + 1 = measureOf graph s := by
      unfold measureOf
      rw [h1, List.toFinset_cons, Finset.sdiff_insert,
        Finset.card_erase_of_mem hnodemem]
      have hpos : 0 < (allNodesF graph \ s.visited.toFinset).card :=
        Finset.card_pos.mpr ⟨node, hnodemem⟩
      omega
    obtain ⟨s2, hrun, hinv⟩ := dfsNeighbors_spec graph f ih
      (pyDictGet graph node) (enterNode node s)
      (fun m hm => pyDictGet_subset graph node m hm) (by omega)
    refine ⟨exitNode node s2, ?_, ?_⟩
    · show (dfsNeighbors (dfsF graph f) (pyDictGet graph node)
          (enterNode node s)).map (exitNode node) = some (exitNode node s2)
      rw [hrun]
      rfl
    · have hinv0 : dfsInv graph s (enterNode node s) := by
        refine ⟨?_, ?_, ?_⟩
        · rw [h1]; exact List.subset_cons_self _ _
        · rw [h1, List.toFinset_cons]
          exact Finset.insert_subset (Finset.mem_union_right _ hn)
            Finset.subset_union_left
        · show (enterNode node s).calls + _ ≤ _
          have hc : (enterNode node s).calls = s.calls + 1 := rfl
          omega
      exact dfsInv_trans hinv0 (dfsInv_trans hinv
        (⟨List.Subset.refl _, Finset.subset_union_left, le_refl _⟩ :
          dfsInv graph s2 (exitNode node s2)))

theorem runRoots_spec (graph : List (Nat × List Nat)) (fuel : Nat)
    (hfuel : (allNodesF graph).card ≤ fuel) :
    ∀ (ks : List Nat) (s : DfsState), (∀ k ∈ ks, k ∈ allNodesF graph) →
      ∃ s', runRoots graph fuel ks s = some s' ∧ dfsInv graph s s' := by
  intro ks
  induction ks with
  | nil => exact fun s _ => ⟨s, rfl, dfsInv_refl graph s⟩
  | cons k rest ih =>
    intro s hks
    by_cases hv : k ∈ s.visited
    · obtain ⟨s', hrun, hinv⟩ := ih s (fun m hm => hks m (List.mem_cons_of_mem _ hm))
      refine ⟨s', ?_, hinv⟩
      simp only [runRoots, if_pos hv]
      exact hrun
    · have hmu : measureOf graph { s with path := [] } ≤ fuel :=
        le_trans (le_trans (Finset.card_le_card (Finset.sdiff_subset)) hfuel) (le_refl _)
      obtain ⟨s2, hd, hinv1⟩ := dfsF_spec graph fuel k { s with path := [] }
        (hks k (List.mem_cons_self _ _)) hv hmu
      have hinv1' : dfsInv graph s s2 := hinv1
      obtain ⟨s', hrun, hinv2⟩ := ih s2 (fun m hm => hks m (List.mem_cons_of_mem _ hm))
      refine ⟨s', ?_, dfsInv_trans hinv1' hinv2⟩
      simp only [runRoots, if_neg hv, hd]
      exact hrun

/-- C10 (amended): the cycle detection traversal always terminates (the
fuelled DFS never runs out on the fuel `detect_cycles` passes), and the
number of `dfs` calls is bounded by the number of distinct nodes of the
dependency graph — the distinct task numbers together with the distinct
referenced precondition numbers, since `dfs` also recurses into dangling
(non-task) neighbours. -/
theorem c10_termination_calls (tasks : List TaskRec) :
    ∃ s : DfsState, runCycles (pyGraph tasks) = some s ∧
      detect_cycles tasks = s.cycles ∧
      s.calls ≤ (allNodesF (pyGraph tasks)).card := by
  have hfuel : (allNodesF (pyGraph tasks)).card ≤ dfsFuel (pyGraph tasks) :=
    List.toFinset_card_le _
  obtain ⟨s, hrun, hinv⟩ := runRoots_spec (pyGraph tasks) (dfsFuel (pyGraph tasks))
    hfuel (pyDictKeys (pyGraph tasks)) initState (keys_subset (pyGraph tasks))
  refine ⟨s, hrun, ?_, ?_⟩
  · unfold detect_cycles
    rw [show runCycles (pyGraph tasks) = some s from hrun]
  · have hle := hinv.2.2
    have h0 : initState.calls = 0 := rfl
    have hminit : measureOf (pyGraph tasks) initState =
        (allNodesF (pyGraph tasks)).card := by
      unfold measureOf initState
      simp
    omega

/-- C10, counterexample: the claim bounds the number of DFS calls by the
number of distinct task numbers.  A single task (one distinct task number)
whose precondition references the absent Task 5 triggers two `dfs` calls,
because the traversal also recurses into the dangling neighbour node 5. -/
theorem c10_calls_counterexample :
    (runCycles (pyGraph [wTask 1 [5]])).map (fun s => s.calls) = some 2 ∧
      (([wTask 1 [5]].map (fun t => t.num)).toFinset.card = 1) ∧ ¬ (2 ≤ 1) :=
  ⟨by decide, by decide, by decide⟩

/-! ### C2: no false cycles on acyclic dependency graphs -/

theorem pyDictGet_source {tasks : List TaskRec} {u v : Nat}
    (hv : v ∈ pyDictGet (pyGraph tasks) u) :
    ∃ t ∈ tasks, t.num = u ∧ v ∈ t.preconditions := by
  unfold pyDictGet at hv
  rcases hl : ((pyGraph tasks).filter (fun p => p.1 == u)).getLast? with _ | p
  · rw [hl] at hv
    cases hv
  · rw [hl] at hv
    have hp := List.mem_of_mem_getLast? hl
    have hmem := (List.mem_filter.mp hp).1
    have hbeq := (List.mem_filter.mp hp).2
    unfold pyGraph at hmem
    rcases List.mem_map.mp hmem with ⟨t, ht, rfl⟩
    exact ⟨t, ht, by simpa using hbeq, hv⟩

/-- Along a run of the neighbour loop, if the rank of every pending
neighbour is below the rank of everything on the recursion stack, no cycle
is recorded and the recursion stack is restored. -/
theorem dfsNeighbors_noCycle (graph : List (Nat × List Nat)) (rank : Nat → Nat)
    (fuel : Nat)
    (hF : ∀ (node : Nat) (s s' : DfsState), (∀ m ∈ s.recStack, rank node < rank m) →
      dfsF graph fuel node s = some s' → s'.cycles = s.cycles ∧ s'.recStack = s.recStack) :
    ∀ (ns : List Nat) (s s' : DfsState),
      (∀ n ∈ ns, ∀ m ∈ s.recStack, rank n < rank m) →
      dfsNeighbors (dfsF graph fuel) ns s = some s' →
      s'.cycles = s.cycles ∧ s'.recStack = s.recStack := by
  intro ns
  induction ns with
  | nil =>
    intro s s' _ h
    rw [show dfsNeighbors (dfsF graph fuel) [] s = some s from rfl] at h
    cases h
    exact ⟨rfl, rfl⟩
  | cons n rest ih =>
    intro s s' hlt h
    rw [show dfsNeighbors (dfsF graph fuel) (n :: rest) s =
      (if n ∈ s.visited then
        dfsNeighbors (dfsF graph fuel) rest (if n ∈ s.recStack then recordCycle n s else s)
      else
        match dfsF graph fuel n s with
        | none => none
        | some s2 => dfsNeighbors (dfsF graph fuel) rest s2) from rfl] at h
    by_cases hv : n ∈ s.visited
    · rw [if_pos hv] at h
      have hnr : n ∉ s.recStack := fun hmem =>
        lt_irrefl _ (hlt n (List.mem_cons_self _ _) n hmem)
      rw [if_neg hnr] at h
      exact ih s s' (fun m hm => hlt m (List.mem_cons_of_mem _ hm)) h
    · rw [if_neg hv] at h
      rcases hd : dfsF graph fuel n s with _ | s2
      · rw [hd] at h
        cases h
      · rw [hd] at h
        have h1 := hF n s s2 (fun m hm => hlt n (List.mem_cons_self _ _) m hm) hd
        have h2 := ih s2 s'
          (fun m hm mm hmm => hlt m (List.mem_cons_of_mem _ hm) mm (h1.2 ▸ hmm)) h
        exact ⟨h2.1.trans h1.1, h2.2.trans h1.2⟩

/-- If a node's rank is below the rank of everything on the recursion
stack and every edge of the graph decreases rank, `dfs` on that node records
no cycle and restores the recursion stack. -/
theorem dfsF_noCycle (graph : List (Nat × List Nat)) (rank : Nat → Nat)
    (hrank : ∀ u v, v ∈ pyDictGet graph u → rank v < rank u) :
    ∀ (fuel : Nat) (node : Nat) (s s' : DfsState),
      (∀ m ∈ s.recStack, rank node < rank m) →
      dfsF graph fuel node s = some s' →
      s'.cycles = s.cycles ∧ s'.recStack = s.recStack := by
  intro fuel
  induction fuel with
  | zero =>
    intro node s s' _ h
    rw [show dfsF graph 0 node s = none from rfl] at h
    cases h
  | succ f ih =>
    intro node s s' hlt h
    rw [show dfsF graph (f + 1) node s =
      (dfsNeighbors (dfsF graph f) (pyDictGet graph node) (enterNode node s)).map
        (exitNode node) from rfl] at h
    rcases hd : dfsNeighbors (dfsF graph f) (pyDictGet graph node) (enterNode node s)
      with _ | s2
    · rw [hd] at h
      cases h
    · rw [hd] at h
      have hs' : s' = exitNode node s2 := by simpa using h.symm
      have h2 := dfsNeighbors_noCycle graph rank f ih (pyDictGet graph node)
        (enterNode node s) s2
        (fun n hn m hm => by
          have hm2 : m ∈ node :: s.recStack := hm
          rcases List.mem_cons.mp hm2 with rfl | hm'
          · exact hrank m n hn
          · exact lt_trans (hrank node n hn) (hlt m hm'))
        hd
      constructor
      · rw [hs']
        exact h2.1
      · rw [hs']
        show s2.recStack.erase node = s.recStack
        rw [show s2.recStack = node :: s.recStack from h2.2]
        exact List.erase_cons_head node s.recStack

/-- Starting from an empty recursion stack, the root loop of
`detect_cycles` records no cycle when every edge decreases rank. -/
theorem runRoots_noCycle (graph : List (Nat × List Nat)) (rank : Nat → Nat)
    (hrank : ∀ u v, v ∈ pyDictGet graph u → rank v < rank u) (fuel : Nat) :
    ∀ (ks : List Nat) (s s' : DfsState), s.recStack = [] →
      runRoots graph fuel ks s = some s' →
      s'.cycles = s.cycles ∧ s'.recStack = [] := by
  intro ks
  induction ks with
  | nil =>
    intro s s' h0 h
    rw [show runRoots graph fuel [] s = some s from rfl] at h
    cases h
    exact ⟨rfl, h0⟩
  | cons k rest ih =>
    intro s s' h0 h
    rw [show runRoots graph fuel (k :: rest) s =
      (if k ∈ s.visited then runRoots graph fuel rest s
       else
        match dfsF graph fuel k { s with path := [] } with
        | none => none
        | some s2 => runRoots graph fuel rest s2) from rfl] at h
    by_cases hv : k ∈ s.visited
    · rw [if_pos hv] at h
      exact ih s s' h0 h
    · rw [if_neg hv] at h
      rcases hd : dfsF graph fuel k { s with path := [] } with _ | s2
      · rw [hd] at h
        cases h
      · rw [hd] at h
        have h1 := dfsF_noCycle graph rank hrank fuel k { s with path := [] } s2
          (fun m hm => by
            have hm2 : m ∈ s.recStack := hm
            rw [h0] at hm2
            cases hm2)
          hd
        have h2 := ih s2 s' (h1.2.trans h0) h
        exact ⟨h2.1.trans h1.1, h2.2⟩

/-- On a dependency graph whose edges all decrease a rank function — that
is, an acyclic graph — `detect_cycles` finds nothing. -/
theorem detect_cycles_of_rank (tasks : List TaskRec) (rank : Nat → Nat)
    (hedge : ∀ t ∈ tasks, ∀ v ∈ t.preconditions, rank v < rank t.num) :
    detect_cycles tasks = [] := by
  have hrank : ∀ u v, v ∈ pyDictGet (pyGraph tasks) u → rank v < rank u := by
    intro u v hv
    obtain ⟨t, ht, rfl, hvp⟩ := pyDictGet_source hv
    exact hedge t ht v hvp
  obtain ⟨s, hrun, _⟩ := runRoots_spec (pyGraph tasks) (dfsFuel (pyGraph tasks))
    (List.toFinset_card_le _) (pyDictKeys (pyGraph tasks)) initState
    (keys_subset (pyGraph tasks))
  have h := runRoots_noCycle (pyGraph tasks) rank hrank (dfsFuel (pyGraph tasks))
    (pyDictKeys (pyGraph tasks)) initState s rfl hrun
  unfold detect_cycles
  rw [show runCycles (pyGraph tasks) = some s from hrun]
  exact h.1

/-- C2: for every task sequence whose dependency graph is acyclic —
witnessed by any rank function decreasing along every declared dependency
edge — the cycle detector finds nothing and the validator emits zero
`acyclic` findings; and in chain form, for every sequence of distinctly
numbered tasks of any length whose first task has no preconditions and in
which each later task depends exactly on its predecessor (in particular
Task 1 ← Task 2 ← Task 3), the same holds. -/
theorem c2_linear_chain :
    (∀ (tasks : List TaskRec) (rank : Nat → Nat),
      (∀ t ∈ tasks, ∀ v ∈ t.preconditions, rank v < rank t.num) →
      detect_cycles tasks = [] ∧
        (validate_tasks tasks).issues.filter (fun f => f.rule == "acyclic") = []) ∧
    (∀ tasks : List TaskRec, (tasks.map (fun t => t.num)).Nodup →
      (∀ h, tasks.head? = some h → h.preconditions = []) →
      List.Chain' (fun a b => b.preconditions = [a.num]) tasks →
      detect_cycles tasks = [] ∧
        (validate_tasks tasks).issues.filter (fun f => f.rule == "acyclic") = []) := by
  have hgen : ∀ (tasks : List TaskRec) (rank : Nat → Nat),
      (∀ t ∈ tasks, ∀ v ∈ t.preconditions, rank v < rank t.num) →
      detect_cycles tasks = [] ∧
        (validate_tasks tasks).issues.filter (fun f => f.rule == "acyclic") = [] := by
    intro tasks rank hedge
    have hc := detect_cycles_of_rank tasks rank hedge
    refine ⟨hc, ?_⟩
    show (validate_tasksO validComplexities tasks).issues.filter
        (fun f => f.rule == "acyclic") = _
    rw [filter_acyclic, hc]
    rfl
  refine ⟨hgen, ?_⟩
  intro tasks hnd hhead hchain
  refine hgen tasks (fun v => (tasks.map (fun t => t.num)).indexOf v) ?_
  intro t ht v hvp
  obtain ⟨j, hj, rfl⟩ := List.mem_iff_getElem.mp ht
  rcases j with _ | i
  · rcases tasks with _ | ⟨h0, rest⟩
    · simp at hj
    · have h0pre : h0.preconditions = [] := hhead h0 rfl
      rw [List.getElem_cons_zero, h0pre] at hvp
      cases hvp
  · have hi : i < tasks.length := by omega
    have him : i < (tasks.map (fun t => t.num)).length := by
      rw [List.length_map]
      omega
    have him1 : i + 1 < (tasks.map (fun t => t.num)).length := by
      rw [List.length_map]
      omega
    have hch := List.chain'_iff_get.mp hchain i (by omega)
    have hch2 : tasks[i + 1].preconditions = [tasks[i].num] := hch
    rw [hch2] at hvp
    have hv : v = tasks[i].num := by simpa using hvp
    subst hv
    have hm1 : tasks[i].num = (tasks.map (fun t => t.num))[i] :=
      (List.getElem_map _).symm
    have hm2 : tasks[i + 1].num = (tasks.map (fun t => t.num))[i + 1] :=
      (List.getElem_map _).symm
    show (tasks.map (fun t => t.num)).indexOf tasks[i].num <
      (tasks.map (fun t => t.num)).indexOf tasks[i + 1].num
    rw [hm1, hm2, List.indexOf_getElem hnd, List.indexOf_getElem hnd]
    omega

/-- C2, witness: the chain form applied to the concrete three-task chain
Task 1 (no preconditions) ← Task 2 ← Task 3. -/
theorem c2_linear_chain_witness :
    detect_cycles [wTask 1 [], wTask 2 [1], wTask 3 [2]] = [] ∧
      (validate_tasks [wTask 1 [], wTask 2 [1], wTask 3 [2]]).issues.filter
          (fun f => f.rule == "acyclic") = [] :=
  c2_linear_chain.2 [wTask 1 [], wTask 2 [1], wTask 3 [2]] (by decide)
    (fun h hh => by cases hh; rfl)
    (List.chain'_cons.mpr ⟨rfl, List.chain'_cons.mpr ⟨rfl, List.chain'_singleton _⟩⟩)
